import Mathlib

/-!
Verification of the trhstreamer standalone streaming server.

This file gives a shallow embedding of the server's session/relay core
(`standalone-server/src/stream-manager.ts`, `routes/torrent.ts`,
`routes/hls.ts`, `utils.ts`) and proves or refutes the specified
properties about it.

Strings are represented as `List Char` (`Str`) so that every operation is
a computable structural recursion. Timestamps are `Int` (JS millisecond
clock). The JS `Map` in `StreamManager` is represented as a list of
entries in insertion order with the JS `Map` semantics of `set`
(replace-in-place or append), `get` (first match) and `delete`.
Backend torrent engines are represented by a handle structure; an
`engine.destroy()` call is recorded by appending the engine's handle id
to the `destroyed` ledger of the manager state.
-/

namespace Trh

/-- Strings as character lists, so all string operations compute. -/
abbrev Str := List Char

/-- `stream.type` field: 'torrent' | 'hls' | 'direct'. -/
inductive StreamType where
  | torrent
  | hls
  | direct
deriving DecidableEq, Repr

/-- A file inside a backend torrent engine: `{ name, length }` of
`TorrentEngine.files` (`types.ts`). -/
structure EngineFile where
  name : Str
  length : Int
deriving DecidableEq, Repr

/-- A backend peer-swarm engine handle (`TorrentEngine` in `types.ts`).
`engineId` identifies the concrete engine instance so that
`engine.destroy()` calls can be recorded in the manager state. -/
structure Engine where
  engineId : Nat
  infoHash : Str
  torrentName : Str
  files : List EngineFile
  torrentLength : Int
deriving DecidableEq, Repr

/-- Per-file metadata entry `{ name, length, index }` built in
`routes/torrent.ts` from `engine.files`. -/
structure FileMeta where
  name : Str
  length : Int
  index : Nat
deriving DecidableEq, Repr

/-- `ManagedStream.metadata` (`stream-manager.ts`). -/
structure Metadata where
  name : Str
  files : List FileMeta
  totalSize : Int
  infoHash : Str
deriving DecidableEq, Repr

/-- `ManagedStream` (`stream-manager.ts`): one registered session. -/
structure ManagedStream where
  id : Str
  type : StreamType
  createdAt : Int
  lastAccessedAt : Int
  engine : Option Engine := none
  hlsBaseUrl : Option Str := none
  directUrl : Option Str := none
  infoHash : Option Str := none
  metadata : Option Metadata := none
deriving DecidableEq, Repr

/-- `StreamManager` state. `streams` is the JS `Map` in insertion order;
`destroyed` records, in order, the `engineId` of every engine on which
`destroy()` has been invoked. -/
structure StreamManager where
  streams : List ManagedStream
  maxStreams : Nat
  ttlMs : Int
  destroyed : List Nat
deriving DecidableEq, Repr

/-- `new StreamManager(opts)` with explicit options (defaults in the
source are `maxStreams = 20`, `ttlMs = 30*60*1000`). -/
def initManager (maxStreams : Nat) (ttlMs : Int) : StreamManager :=
  { streams := [], maxStreams := maxStreams, ttlMs := ttlMs, destroyed := [] }

/-- JS `Map.set` on the entry list: replace in place the first entry with
the same key, else append at the end. -/
def mapSet (l : List ManagedStream) (s : ManagedStream) : List ManagedStream :=
  match l with
  | [] => [s]
  | t :: ts => if t.id = s.id then s :: ts else t :: mapSet ts s

/-- JS `Map.get` on the entry list: first entry with the key. -/
def mapGet (l : List ManagedStream) (id : Str) : Option ManagedStream :=
  match l with
  | [] => none
  | t :: ts => if t.id = id then some t else mapGet ts id

/-- JS `Map.delete` on the entry list: drop the first entry with the key. -/
def mapDelete (l : List ManagedStream) (id : Str) : List ManagedStream :=
  match l with
  | [] => []
  | t :: ts => if t.id = id then ts else t :: mapDelete ts id

/-- `destroyEngine(stream)`: the engine ids whose `destroy()` gets invoked
(one if the stream holds an engine, none otherwise). -/
def engineIdList (s : ManagedStream) : List Nat :=
  match s.engine with
  | some e => [e.engineId]
  | none => []

/-- `StreamManager.remove(id)`: look the stream up; if absent do nothing,
else destroy its engine and delete the map entry. -/
def removeOp (id : Str) (st : StreamManager) : StreamManager :=
  match mapGet st.streams id with
  | none => st
  | some s =>
      { st with
        streams := mapDelete st.streams id,
        destroyed := st.destroyed ++ engineIdList s }

/-- The fold body of `evictLRU`'s `for` loop: keep the stream with the
strictly smaller `lastAccessedAt` (so the earliest entry wins ties). -/
def stepOldest (acc : Option ManagedStream) (s : ManagedStream) :
    Option ManagedStream :=
  match acc with
  | none => some s
  | some o => if s.lastAccessedAt < o.lastAccessedAt then some s else some o

/-- The `oldest` stream computed by `StreamManager.evictLRU`. -/
def findOldest (l : List ManagedStream) : Option ManagedStream :=
  l.foldl stepOldest none

/-- `StreamManager.evictLRU()`: remove the oldest stream, if any. -/
def evictLRU (st : StreamManager) : StreamManager :=
  match findOldest st.streams with
  | none => st
  | some o => removeOp o.id st

/-- The `this.streams.set(stream.id, stream)` step of `add`. -/
def insertSt (s : ManagedStream) (st : StreamManager) : StreamManager :=
  { st with streams := mapSet st.streams s }

/-- `StreamManager.add(stream)`: evict the LRU entry when the map already
holds `maxStreams` entries, then `set` the new stream. -/
def addOp (s : ManagedStream) (st : StreamManager) : StreamManager :=
  insertSt s (if st.maxStreams ≤ st.streams.length then evictLRU st else st)

/-- `StreamManager.get(id)`: on a hit, refresh `lastAccessedAt` to `now`
and return the refreshed stream. -/
def getOp (now : Int) (id : Str) (st : StreamManager) :
    Option ManagedStream × StreamManager :=
  match mapGet st.streams id with
  | none => (none, st)
  | some s =>
      let s' := { s with lastAccessedAt := now }
      (some s', { st with streams := mapSet st.streams s' })

/-- The `for` loop of `findByInfoHash`: first stream whose `infoHash`
field equals the target. -/
def findByHash (h : Str) : List ManagedStream → Option ManagedStream
  | [] => none
  | t :: ts => if t.infoHash = some h then some t else findByHash h ts

/-- `StreamManager.findByInfoHash(infoHash)`: first stream whose
`infoHash` field equals the argument; refresh its `lastAccessedAt`. -/
def findByInfoHashOp (now : Int) (h : Str) (st : StreamManager) :
    Option ManagedStream × StreamManager :=
  match findByHash h st.streams with
  | none => (none, st)
  | some s =>
      let s' := { s with lastAccessedAt := now }
      (some s', { st with streams := mapSet st.streams s' })

/-- The loop of `StreamManager.cleanup()` over a snapshot of the entries:
remove every stream idle strictly longer than `ttlMs`. -/
def cleanupGo (ttl now : Int) : List ManagedStream → StreamManager → StreamManager
  | [], st => st
  | s :: rest, st =>
      cleanupGo ttl now rest
        (if ttl < now - s.lastAccessedAt then removeOp s.id st else st)

/-- `StreamManager.cleanup()` (the TTL sweep), at clock value `now`. -/
def cleanupOp (now : Int) (st : StreamManager) : StreamManager :=
  cleanupGo st.ttlMs now st.streams st

/-- `StreamManager.shutdown()`: destroy every engine and clear the map. -/
def shutdownOp (st : StreamManager) : StreamManager :=
  { st with
    streams := [],
    destroyed := st.destroyed ++ st.streams.flatMap engineIdList }

/-- One Session Store operation, for reachability statements. -/
inductive Op where
  | add (s : ManagedStream)
  | get (now : Int) (id : Str)
  | findByInfoHash (now : Int) (h : Str)
  | remove (id : Str)
  | sweep (now : Int)
deriving Repr

/-- Apply one operation to the manager state. -/
def stepOp (st : StreamManager) : Op → StreamManager
  | .add s => addOp s st
  | .get now id => (getOp now id st).2
  | .findByInfoHash now h => (findByInfoHashOp now h st).2
  | .remove id => removeOp id st
  | .sweep now => cleanupOp now st

/-- Run a sequence of operations. -/
def runOps (st : StreamManager) (ops : List Op) : StreamManager :=
  ops.foldl stepOp st

/-- Well-formedness: map keys are pairwise distinct (guaranteed by the JS
`Map` representation). -/
def WF (st : StreamManager) : Prop :=
  st.streams.Pairwise (fun a b => a.id ≠ b.id)

instance (st : StreamManager) : Decidable (WF st) := by
  unfold WF
  infer_instance

/-- ASCII lower-casing of one character (JS `toLowerCase` on the ASCII
range, which is all the code applies it to: hex/base32 hashes, URL
schemes and hosts, file extensions). -/
def charToLower (c : Char) : Char :=
  if 'A' ≤ c ∧ c ≤ 'Z' then Char.ofNat (c.toNat + 32) else c

/-- JS `String.prototype.toLowerCase` (ASCII fragment). -/
def toLowerStr (s : Str) : Str :=
  s.map charToLower

/-- `pat.isPrefixOf s` for character lists (JS `String.startsWith`). -/
def startsWithStr : Str → Str → Bool
  | [], _ => true
  | _ :: _, [] => false
  | p :: ps, c :: cs => p = c && startsWithStr ps cs

/-- Case-insensitively strip `pat` from the front of `s`, returning the
remainder on success. -/
def dropCI : Str → Str → Option Str
  | [], s => some s
  | _ :: _, [] => none
  | p :: ps, c :: cs =>
      if charToLower p = charToLower c then dropCI ps cs else none

/-- Character class `[a-fA-F0-9]` of the info-hash regex. -/
def isHexChar (c : Char) : Bool :=
  c.isDigit || ('a' ≤ c && c ≤ 'f') || ('A' ≤ c && c ≤ 'F')

/-- Character class `[a-zA-Z2-7]` of the info-hash regex. -/
def isB32Char (c : Char) : Bool :=
  c.isAlpha || ('2' ≤ c && c ≤ '7')

/-- Take exactly `n` leading characters all satisfying `p`. -/
def takeClass (p : Char → Bool) : Nat → Str → Option Str
  | 0, _ => some []
  | _ + 1, [] => none
  | n + 1, c :: cs =>
      if p c then (takeClass p n cs).map (fun r => c :: r) else none

/-- One attempt of the regex `/xt=urn:btih:([a-fA-F0-9]{40}|[a-zA-Z2-7]{32})/i`
at the current position: match the literal case-insensitively, then the
40-char hex alternative first, then the 32-char base32 alternative. -/
def tryBtih (s : Str) : Option Str :=
  match dropCI "xt=urn:btih:".toList s with
  | none => none
  | some rest =>
      match takeClass isHexChar 40 rest with
      | some h => some h
      | none => takeClass isB32Char 32 rest

/-- `magnetUri.match(/xt=urn:btih:([a-fA-F0-9]{40}|[a-zA-Z2-7]{32})/i)`:
the captured group of the leftmost match, if any. -/
def extractInfoHash : Str → Option Str
  | [] => none
  | c :: cs =>
      match tryBtih (c :: cs) with
      | some h => some h
      | none => extractInfoHash cs

/-- `magnetUri.startsWith('magnet:?')`. -/
def isMagnet (s : Str) : Bool :=
  startsWithStr "magnet:?".toList s

/-- Which of the three `waitForReady` events fires first for an engine:
the `ready` event, the `error` event, or the timeout timer. -/
inductive ReadySignal where
  | readyEvt
  | errorEvt
  | timeoutEvt
deriving DecidableEq, Repr

/-- Upstream-type failures of torrent creation. -/
inductive UpErr where
  | timeout
  | engineError
deriving DecidableEq, Repr

/-- Outcome of `waitForReady`. -/
inductive WaitOutcome where
  | ok (e : Engine)
  | err (u : UpErr)
deriving DecidableEq, Repr

/-- Result of `waitForReady` together with whether `engine.destroy()` was
invoked on the engine before the promise settled. -/
structure WaitResult where
  outcome : WaitOutcome
  engineDestroyed : Bool
deriving DecidableEq, Repr

/-- `waitForReady(engine, timeoutMs)` from `routes/torrent.ts`. The
timeout branch calls `engine.destroy()` and rejects; the `ready` branch
resolves; the `error` branch clears the timer and rejects (without any
call to `engine.destroy()`). -/
def waitForReady (e : Engine) (sig : ReadySignal) : WaitResult :=
  match sig with
  | .readyEvt => { outcome := .ok e, engineDestroyed := false }
  | .errorEvt => { outcome := .err .engineError, engineDestroyed := false }
  | .timeoutEvt => { outcome := .err .timeout, engineDestroyed := true }

/-- The metadata object built in `POST /api/torrent/add` from a ready
engine: name, indexed file list, total size, info-hash. -/
def engineMetadata (e : Engine) : Metadata :=
  { name := e.torrentName,
    files := e.files.enum.map (fun p =>
      { name := p.2.name, length := p.2.length, index := p.1 }),
    totalSize := e.torrentLength,
    infoHash := e.infoHash }

/-- Responses of `POST /api/torrent/add`. -/
inductive AddRes where
  | invalidMagnet
  | cached (id : Str) (meta : Metadata)
  | ok (id : Str) (meta : Metadata)
  | failed (u : UpErr)
deriving DecidableEq, Repr

/-- The `ManagedStream` registered by `POST /api/torrent/add` for a
ready engine. -/
def torrentSession (newId : Str) (now : Int) (e : Engine) : ManagedStream :=
  { id := newId, type := .torrent, createdAt := now, lastAccessedAt := now,
    engine := some e, infoHash := some e.infoHash,
    metadata := some (engineMetadata e) }

/-- The engine-construction path of `POST /api/torrent/add`: instantiate
the engine (counted by the third component of the result), await
readiness, then register the session and answer with the metadata. -/
def spawnEnginePath (newId : Str) (eng : Engine) (sig : ReadySignal)
    (now : Int) (st : StreamManager) : AddRes × StreamManager × Nat :=
  match (waitForReady eng sig).outcome with
  | .err u => (.failed u, st, 1)
  | .ok e =>
      (.ok newId (engineMetadata e), addOp (torrentSession newId now e) st, 1)

/-- `POST /api/torrent/add` (`routes/torrent.ts`): validate the magnet
URI, dedupe by extracted info-hash against the store, otherwise build an
engine. `eng` is the engine `torrentStream(magnetUri, …)` would return
and `sig` is the first `waitForReady` event; the `Nat` of the result
counts backend engine instantiations performed by the call. -/
def torrentAdd (magnet newId : Str) (eng : Engine) (sig : ReadySignal)
    (now : Int) (st : StreamManager) : AddRes × StreamManager × Nat :=
  if isMagnet magnet = false then (.invalidMagnet, st, 0)
  else
    match extractInfoHash magnet with
    | some h =>
        match findByInfoHashOp now (toLowerStr h) st with
        | (some s, st₁) =>
            match s.metadata with
            | some m => (.cached s.id m, st₁, 0)
            | none => spawnEnginePath newId eng sig now st₁
        | (none, st₁) => spawnEnginePath newId eng sig now st₁
    | none => spawnEnginePath newId eng sig now st

/-- JS whitespace for `trim`/`parseInt` (space, tab, LF, CR, VT, FF). -/
def jsWhitespace (c : Char) : Bool :=
  c = ' ' || c = '\t' || c = '\n' || c = '\r' ||
    c = Char.ofNat 11 || c = Char.ofNat 12

/-- Value of a nonempty ASCII digit string. -/
def digitsVal (ds : Str) : Nat :=
  ds.foldl (fun acc c => acc * 10 + (c.toNat - '0'.toNat)) 0

/-- Longest leading digit run, `none` when there is none. -/
def parseDigits (s : Str) : Option Nat :=
  let ds := s.takeWhile Char.isDigit
  if ds = [] then none else some (digitsVal ds)

/-- JS `parseInt(s, 10)`: skip whitespace, optional sign, longest digit
run; `none` models `NaN`. -/
def jsParseInt (s : Str) : Option Int :=
  match s.dropWhile jsWhitespace with
  | '-' :: rest => (parseDigits rest).map (fun n => -(n : Int))
  | '+' :: rest => (parseDigits rest).map (fun n => (n : Int))
  | rest => (parseDigits rest).map (fun n => (n : Int))

/-- JS `String.prototype.split` with a one-character separator. -/
def splitOnChar (sep : Char) : Str → List Str
  | [] => [[]]
  | c :: cs =>
      if c = sep then [] :: splitOnChar sep cs
      else
        match splitOnChar sep cs with
        | [] => [[c]]
        | w :: ws => (c :: w) :: ws

/-- JS `String.prototype.replace` with a literal pattern: rewrite the
first occurrence of `pat` to the empty string. -/
def replaceFirst (pat : Str) : Str → Str
  | [] => []
  | c :: cs =>
      if startsWithStr pat (c :: cs) then (c :: cs).drop pat.length
      else c :: replaceFirst pat cs

/-- The response head written by `GET /api/torrent/stream/:id/:fileIndex`.
`contentRange` holds the `bytes {start}-{end}/{size}` header fields,
where a `none` component models JS `NaN` from `parseInt`. -/
structure RangeHead where
  status : Nat
  contentRange : Option (Option Int × Option Int × Int)
  contentLength : Option Int
  contentType : Str
  acceptRanges : Bool
deriving DecidableEq, Repr

/-- `range.replace(/bytes=/, '').split('-')` of the torrent stream
route. -/
def rangeParts (range : Str) : List Str :=
  splitOnChar '-' (replaceFirst "bytes=".toList range)

/-- `parseInt(parts[0], 10)` of the torrent stream route (`none` is
`NaN`). -/
def rangeStart (range : Str) : Option Int :=
  jsParseInt ((rangeParts range).headD [])

/-- `parts[1] ? parseInt(parts[1], 10) : totalSize - 1` of the torrent
stream route (a missing or empty second part is falsy). -/
def rangeEnd (range : Str) (totalSize : Int) : Option Int :=
  match (rangeParts range).get? 1 with
  | some w => if w = [] then some (totalSize - 1) else jsParseInt w
  | none => some (totalSize - 1)

/-- The `if (range)` branch of the torrent stream route: parse the Range
header and emit a 206 head with `Content-Range: bytes
{start}-{end}/{totalSize}` and `Content-Length: end - start + 1`. No
clamping and no start/end validation is performed. -/
def torrentRangeHead (range : Str) (totalSize : Int) (ct : Str) : RangeHead :=
  let start := rangeStart range
  let endv := rangeEnd range totalSize
  let chunk :=
    match start, endv with
    | some a, some b => some (b - a + 1)
    | _, _ => none
  { status := 206, contentRange := some (start, endv, totalSize),
    contentLength := chunk, contentType := ct, acceptRanges := true }

/-- Responses of the torrent stream route. -/
inductive StreamRes where
  | notFound (msg : Str)
  | head (h : RangeHead)
deriving DecidableEq, Repr

/-- `path.extname` (posix): the extension of the last path segment,
empty for dotless names and for dotfiles. -/
def extname (s : Str) : Str :=
  let base := (splitOnChar '/' s).getLastD []
  let revExt := base.reverse.takeWhile (fun c => c ≠ '.')
  if revExt.length = base.length then []
  else if revExt.length + 1 = base.length then []
  else '.' :: revExt.reverse

/-- The extension-to-MIME map of `utils.ts`. -/
def mimeMap : List (Str × Str) :=
  [(".m3u8".toList, "application/vnd.apple.mpegurl".toList),
   (".m3u".toList, "application/vnd.apple.mpegurl".toList),
   (".ts".toList, "video/mp2t".toList),
   (".mp4".toList, "video/mp4".toList),
   (".webm".toList, "video/webm".toList),
   (".mkv".toList, "video/x-matroska".toList),
   (".mov".toList, "video/quicktime".toList),
   (".avi".toList, "video/x-msvideo".toList),
   (".flv".toList, "video/x-flv".toList),
   (".ogg".toList, "video/ogg".toList),
   (".aac".toList, "audio/aac".toList),
   (".mp3".toList, "audio/mpeg".toList)]

/-- `getMimeType(filename)` from `utils.ts`. -/
def getMimeType (filename : Str) : Str :=
  let ext := toLowerStr (extname filename)
  match mimeMap.find? (fun p => p.1 = ext) with
  | some p => p.2
  | none => "application/octet-stream".toList

/-- `GET /api/torrent/stream/:id/:fileIndex` (`routes/torrent.ts`):
look the session up (refreshing `lastAccessedAt`), check its type and
engine, index into the engine's files with the JS array semantics
(`NaN`, negative or out-of-range indices give `undefined`), then emit
the 206 or 200 head. -/
def torrentStreamHandler (now : Int) (st : StreamManager)
    (idStr fileIndexStr : Str) (range : Option Str) :
    StreamRes × StreamManager :=
  match getOp now idStr st with
  | (none, st₁) => (.notFound "Torrent stream not found".toList, st₁)
  | (some s, st₁) =>
      match (if s.type = .torrent then s.engine else none) with
      | none => (.notFound "Torrent stream not found".toList, st₁)
      | some eng =>
          let file :=
            match jsParseInt fileIndexStr with
            | some i =>
                if 0 ≤ i ∧ i < (eng.files.length : Int) then
                  eng.files.get? i.toNat
                else none
            | none => none
          match file with
          | none => (.notFound "File not found in torrent".toList, st₁)
          | some f =>
              let ct := getMimeType f.name
              match range with
              | some r => (.head (torrentRangeHead r f.length ct), st₁)
              | none =>
                  (.head { status := 200, contentRange := none,
                           contentLength := some f.length,
                           contentType := ct, acceptRanges := true }, st₁)

/-- The range handling as claim C5 states it: `start = max(0, parsed
start)`, `end = min(parsed end or fileLength-1, fileLength-1)`, a range
with `start > end` (or an unparsable part) is invalid (`none`), and a
valid range yields a 206 head with `Content-Range: bytes
{start}-{end}/{fileLength}`. -/
def specClampedRangeHead (range : Str) (totalSize : Int) (ct : Str) :
    Option RangeHead :=
  match rangeStart range, rangeEnd range totalSize with
  | some a, some b0 =>
      let s := max 0 a
      let e := min b0 (totalSize - 1)
      if s > e then none
      else
        some { status := 206, contentRange := some (some s, some e, totalSize),
               contentLength := some (e - s + 1), contentType := ct,
               acceptRanges := true }
  | _, _ => none

/-- Scheme/host/path of an absolute URL (model of the WHATWG `URL`
components the handlers use). -/
structure UrlParts where
  scheme : Str
  host : Str
  path : Str
deriving DecidableEq, Repr

/-- Split `s` around the first occurrence of `pat`. -/
def splitOnSubstr (pat : Str) : Str → Option (Str × Str)
  | [] => if pat = [] then some ([], []) else none
  | c :: cs =>
      if startsWithStr pat (c :: cs) then some ([], (c :: cs).drop pat.length)
      else (splitOnSubstr pat cs).map (fun p => (c :: p.1, p.2))

/-- Valid URL scheme characters. -/
def isSchemeChar (c : Char) : Bool :=
  c.isAlpha || c.isDigit || c = '+' || c = '-' || c = '.'

/-- Parse an absolute URL of the `scheme://host/path` shape (model of
`new URL(s)`): lower-cases scheme and host, defaults the path to `/`. -/
def parseAbsUrl (s : Str) : Option UrlParts :=
  match splitOnSubstr "://".toList s with
  | none => none
  | some (sch, rest) =>
      if sch = [] then none
      else if sch.all isSchemeChar = false then none
      else
        let host := rest.takeWhile (fun c => c ≠ '/')
        let p := rest.dropWhile (fun c => c ≠ '/')
        some { scheme := toLowerStr sch, host := toLowerStr host,
               path := if p = [] then ['/'] else p }

/-- Serialize URL components back to a string. -/
def renderUrl (u : UrlParts) : Str :=
  u.scheme ++ "://".toList ++ u.host ++ u.path

/-- Host component of an absolute URL string (empty if unparsable). -/
def urlHost (s : Str) : Str :=
  match parseAbsUrl s with
  | some u => u.host
  | none => []

/-- The directory part of a path: everything up to and including the
last `/`. -/
def dirOf (path : Str) : Str :=
  (path.reverse.dropWhile (fun c => c ≠ '/')).reverse

/-- Dot-segment removal over reversed-accumulated path segments; `..`
pops one segment but never the root. -/
def rdsGo : List Str → List Str → List Str
  | [], acc => acc.reverse
  | s :: rest, acc =>
      if s = ['.'] then rdsGo rest acc
      else if s = ['.', '.'] then
        rdsGo rest (if acc.length ≤ 1 then acc else acc.drop 1)
      else rdsGo rest (s :: acc)

/-- Remove `.`/`..` segments from a `/`-rooted path (model of the path
normalization `new URL` performs on resolution). -/
def removeDotSegments (path : Str) : Str :=
  List.intercalate ['/'] (rdsGo (splitOnChar '/' path) [])

/-- `new URL(suffix, base).toString()` for the http(s) cases the relay
handles: an absolute suffix wins outright; `//…` takes the base scheme;
`/…` replaces the path; anything else resolves against the base URL's
directory with dot-segment normalization. -/
def resolveUrl (suffix base : Str) : Option Str :=
  match parseAbsUrl suffix with
  | some u => some (renderUrl u)
  | none =>
      match parseAbsUrl base with
      | none => none
      | some b =>
          if startsWithStr "//".toList suffix then
            (parseAbsUrl (b.scheme ++ [':'] ++ suffix)).map renderUrl
          else if startsWithStr ['/'] suffix then
            some (renderUrl { scheme := b.scheme, host := b.host,
                              path := removeDotSegments suffix })
          else
            some (renderUrl { scheme := b.scheme, host := b.host,
                              path := removeDotSegments (dirOf b.path ++ suffix) })

/-- Result of `GET /api/hls/:id/segment/*`: a 404, a resolution failure,
or an upstream fetch of the resolved target with forwarded headers. -/
inductive SegRes where
  | notFound (msg : Str)
  | resolveFail
  | fetchUpstream (target : Str) (hdrs : List (Str × Str))
deriving DecidableEq, Repr

/-- `GET /api/hls/:id/segment/*` (`routes/hls.ts`): look up the session
(refreshing `lastAccessedAt`), require type `hls` with a base URL,
resolve the wildcard suffix against the base URL and fetch the resolved
target upstream, forwarding `range` and `user-agent` when present. The
handler has no validation step between resolution and fetch. -/
def hlsSegmentHandler (now : Int) (st : StreamManager) (idStr suffix : Str)
    (range ua : Option Str) : SegRes × StreamManager :=
  match getOp now idStr st with
  | (none, st₁) => (.notFound "HLS stream not found".toList, st₁)
  | (some s, st₁) =>
      match (if s.type = .hls then s.hlsBaseUrl else none) with
      | none => (.notFound "HLS stream not found".toList, st₁)
      | some base =>
          match resolveUrl suffix base with
          | none => (.resolveFail, st₁)
          | some target =>
              let hdrs :=
                (match range with
                 | some r => [("range".toList, r)]
                 | none => []) ++
                (match ua with
                 | some u => [("user-agent".toList, u)]
                 | none => [])
              (.fetchUpstream target hdrs, st₁)

/-- JS `String.prototype.trim`. -/
def jsTrim (s : Str) : Str :=
  ((s.dropWhile jsWhitespace).reverse.dropWhile jsWhitespace).reverse

/-- The characters `encodeURI` leaves unescaped. -/
def isEncodeURIUnreserved (c : Char) : Bool :=
  c.isAlpha || c.isDigit ||
    ([';', '/', '?', ':', '@', '&', '=', '+', '$', ',', '-', '_', '.',
      '!', '~', '*', Char.ofNat 39, '(', ')', '#'] : List Char).contains c

/-- UTF-8 bytes of one character. -/
def utf8Bytes (c : Char) : List Nat :=
  let n := c.toNat
  if n < 128 then [n]
  else if n < 2048 then [192 + n / 64, 128 + n % 64]
  else if n < 65536 then
    [224 + n / 4096, 128 + (n / 64) % 64, 128 + n % 64]
  else
    [240 + n / 262144, 128 + (n / 4096) % 64, 128 + (n / 64) % 64,
     128 + n % 64]

/-- Upper-case hex digit. -/
def hexDigitU (n : Nat) : Char :=
  if n < 10 then Char.ofNat ('0'.toNat + n) else Char.ofNat ('A'.toNat + n - 10)

/-- `%XY` escape of one byte. -/
def pctByte (b : Nat) : Str :=
  ['%', hexDigitU (b / 16), hexDigitU (b % 16)]

/-- JS `encodeURI`: keep unreserved characters, percent-encode the UTF-8
bytes of everything else. -/
def encodeURI (s : Str) : Str :=
  s.flatMap (fun c =>
    if isEncodeURIUnreserved c then [c] else (utf8Bytes c).flatMap pctByte)

/-- The `/^https?:\/\//i` test of the manifest rewriter. -/
def isAbsHttpUrl (s : Str) : Bool :=
  startsWithStr "http://".toList (toLowerStr s) ||
    startsWithStr "https://".toList (toLowerStr s)

/-- One line of the manifest rewrite in `GET /api/hls/:id/master`
(`routes/hls.ts`): trim the line; pass blank and `#` lines and absolute
http(s) URLs through unchanged; rewrite everything else to the proxy
path plus `encodeURI` of the trimmed text. -/
def rewriteLine (base : Str) (line : Str) : Str :=
  let trimmed := jsTrim line
  if trimmed = [] then line
  else if startsWithStr ['#'] trimmed then line
  else if isAbsHttpUrl trimmed then line
  else base ++ encodeURI trimmed

/-- The whole-manifest rewrite: split on newlines, rewrite each line,
rejoin. -/
def rewriteManifest (base text : Str) : Str :=
  List.intercalate ['\n'] ((splitOnChar '\n' text).map (rewriteLine base))

/-- The per-line rewrite as claim C7 states it: blank lines, lines
starting with the comment marker and absolute http(s) URL lines are
emitted verbatim, and every other non-empty line becomes the proxy path
followed by the percent-encoding of the original (untrimmed) line
text. -/
def specRewriteLine (base : Str) (line : Str) : Str :=
  if line = [] then line
  else if startsWithStr ['#'] line then line
  else if isAbsHttpUrl line then line
  else base ++ encodeURI line

/-- Whole-manifest version of `specRewriteLine`. -/
def specRewriteManifest (base text : Str) : Str :=
  List.intercalate ['\n'] ((splitOnChar '\n' text).map (specRewriteLine base))

/-- Concrete engine fixture. -/
def engA : Engine :=
  { engineId := 1, infoHash := [], torrentName := [], files := [],
    torrentLength := 0 }

/-- Concrete engine fixture. -/
def engB : Engine :=
  { engineId := 2, infoHash := [], torrentName := [], files := [],
    torrentLength := 0 }

/-- Concrete session fixture (torrent, access time 3). -/
def sessA : ManagedStream :=
  { id := ['a'], type := .torrent, createdAt := 0, lastAccessedAt := 3,
    engine := some engA }

/-- Concrete session fixture (torrent, access time 3, inserted after
`sessA`). -/
def sessB : ManagedStream :=
  { id := ['b'], type := .torrent, createdAt := 0, lastAccessedAt := 3,
    engine := some engB }

/-- Concrete session fixture (hls, access time 9). -/
def sessC : ManagedStream :=
  { id := ['c'], type := .hls, createdAt := 0, lastAccessedAt := 9,
    hlsBaseUrl := some "https://cdn.example/hls/master.m3u8".toList }

/-- Concrete session fixture to insert. -/
def sessD : ManagedStream :=
  { id := ['d'], type := .hls, createdAt := 10, lastAccessedAt := 10 }

/-- Concrete store fixture at capacity with an access-time tie. -/
def storeABC : StreamManager :=
  { streams := [sessA, sessB, sessC], maxStreams := 3, ttlMs := 1000,
    destroyed := [] }

/-- Concrete engine fixture. -/
def engE : Engine :=
  { engineId := 7, infoHash := [], torrentName := [], files := [],
    torrentLength := 0 }

/-- Concrete session fixture (torrent, idle since time 0). -/
def sessE : ManagedStream :=
  { id := ['e'], type := .torrent, createdAt := 0, lastAccessedAt := 0,
    engine := some engE }

/-- Concrete session fixture (hls, accessed at time 90). -/
def sessF : ManagedStream :=
  { id := ['f'], type := .hls, createdAt := 0, lastAccessedAt := 90,
    hlsBaseUrl := some "https://cdn.example/hls/master.m3u8".toList }

/-- Concrete store fixture with a 50 ms TTL. -/
def storeEF : StreamManager :=
  { streams := [sessE, sessF], maxStreams := 20, ttlMs := 50,
    destroyed := [] }

/-- Concrete magnet URI fixture (40 hex chars of info-hash). -/
def magnetW : Str :=
  "magnet:?xt=urn:btih:AAAAAAAAAAAAAAAAAAAAAAAAAAAAAAAAAAAAAAAA".toList

/-- The info-hash captured from `magnetW`. -/
def hashW : Str :=
  "AAAAAAAAAAAAAAAAAAAAAAAAAAAAAAAAAAAAAAAA".toList

/-- Concrete engine fixture reporting the canonical (lower-case hex)
info-hash of `magnetW`. -/
def engW : Engine :=
  { engineId := 3,
    infoHash := "aaaaaaaaaaaaaaaaaaaaaaaaaaaaaaaaaaaaaaaa".toList,
    torrentName := "w".toList,
    files := [{ name := "w.mp4".toList, length := 100 }],
    torrentLength := 100 }

/-- Concrete engine fixture with a single 1000-byte file. -/
def engT : Engine :=
  { engineId := 9, infoHash := [], torrentName := "t".toList,
    files := [{ name := "movie.mp4".toList, length := 1000 }],
    torrentLength := 1000 }

/-- Concrete torrent session fixture over `engT`. -/
def sessT : ManagedStream :=
  { id := ['t'], type := .torrent, createdAt := 0, lastAccessedAt := 0,
    engine := some engT }

/-- Concrete store fixture holding only `sessT`. -/
def storeT : StreamManager :=
  { streams := [sessT], maxStreams := 20, ttlMs := 1000, destroyed := [] }

/-- Concrete store fixture at capacity 1 holding only `sessE`. -/
def storeG : StreamManager :=
  { streams := [sessE], maxStreams := 1, ttlMs := 1000, destroyed := [] }

/-- Concrete session fixture reusing the id of `sessE` with a different
engine, for overwrite scenarios. -/
def sessE2 : ManagedStream :=
  { id := ['e'], type := .torrent, createdAt := 5, lastAccessedAt := 5,
    engine := some engB }

theorem mapSet_length_le (s : ManagedStream) :
    ∀ l : List ManagedStream, (mapSet l s).length ≤ l.length + 1
  | [] => by simp [mapSet]
  | t :: ts => by
      simp only [mapSet]
      split
      · simp
      · simpa using Nat.succ_le_succ (mapSet_length_le s ts)

theorem mapSet_length_of_mem (s : ManagedStream) :
    ∀ l : List ManagedStream, s.id ∈ l.map ManagedStream.id →
      (mapSet l s).length = l.length
  | [], h => by simp at h
  | t :: ts, h => by
      simp only [mapSet]
      by_cases ht : t.id = s.id
      · simp [ht]
      · have hm : s.id ∈ ts.map ManagedStream.id := by
          simp only [List.map_cons, List.mem_cons] at h
          rcases h with h | h
          · exact absurd h.symm ht
          · exact h
        simp [ht, mapSet_length_of_mem s ts hm]

theorem mapSet_mem (s t : ManagedStream) :
    ∀ l : List ManagedStream, t ∈ mapSet l s → t = s ∨ t ∈ l
  | [] => by simp [mapSet]
  | u :: us => by
      simp only [mapSet]
      split
      · intro h
        rcases List.mem_cons.mp h with h | h
        · exact Or.inl h
        · exact Or.inr (List.mem_cons_of_mem _ h)
      · intro h
        rcases List.mem_cons.mp h with h | h
        · exact Or.inr (h ▸ List.mem_cons_self _ _)
        · rcases mapSet_mem s t us h with h | h
          · exact Or.inl h
          · exact Or.inr (List.mem_cons_of_mem _ h)

theorem mapDelete_length_le (id : Str) :
    ∀ l : List ManagedStream, (mapDelete l id).length ≤ l.length
  | [] => by simp [mapDelete]
  | t :: ts => by
      simp only [mapDelete]
      split
      · simp
      · simpa using Nat.succ_le_succ (mapDelete_length_le id ts)

theorem mapDelete_length_of_mem (id : Str) :
    ∀ l : List ManagedStream, id ∈ l.map ManagedStream.id →
      (mapDelete l id).length + 1 = l.length
  | [], h => by simp at h
  | t :: ts, h => by
      simp only [mapDelete]
      by_cases ht : t.id = id
      · simp [ht]
      · have hm : id ∈ ts.map ManagedStream.id := by
          simp only [List.map_cons, List.mem_cons] at h
          rcases h with h | h
          · exact absurd h.symm ht
          · exact h
        simp [ht, mapDelete_length_of_mem id ts hm]

theorem mapDelete_subset (id : Str) (t : ManagedStream) :
    ∀ l : List ManagedStream, t ∈ mapDelete l id → t ∈ l
  | [] => by simp [mapDelete]
  | u :: us => by
      simp only [mapDelete]
      split
      · exact fun h => List.mem_cons_of_mem _ h
      · intro h
        rcases List.mem_cons.mp h with h | h
        · exact h ▸ List.mem_cons_self _ _
        · exact List.mem_cons_of_mem _ (mapDelete_subset id t us h)

theorem mapGet_eq_some (id : Str) (s : ManagedStream) :
    ∀ l : List ManagedStream, mapGet l id = some s → s ∈ l ∧ s.id = id
  | [] => by simp [mapGet]
  | t :: ts => by
      simp only [mapGet]
      split
      · rename_i ht
        intro h
        cases h
        exact ⟨List.mem_cons_self _ _, ht⟩
      · intro h
        obtain ⟨hm, hid⟩ := mapGet_eq_some id s ts h
        exact ⟨List.mem_cons_of_mem _ hm, hid⟩

theorem mapGet_isSome_of_mem (id : Str) :
    ∀ l : List ManagedStream, id ∈ l.map ManagedStream.id →
      ∃ s, mapGet l id = some s
  | [], h => by simp at h
  | t :: ts, h => by
      simp only [mapGet]
      by_cases ht : t.id = id
      · exact ⟨t, by simp [ht]⟩
      · have hm : id ∈ ts.map ManagedStream.id := by
          simp only [List.map_cons, List.mem_cons] at h
          rcases h with h | h
          · exact absurd h.symm ht
          · exact h
        simpa [ht] using mapGet_isSome_of_mem id ts hm

theorem findByHash_eq_some (h : Str) (s : ManagedStream) :
    ∀ l : List ManagedStream, findByHash h l = some s →
      s ∈ l ∧ s.infoHash = some h
  | [] => by simp [findByHash]
  | t :: ts => by
      simp only [findByHash]
      split
      · rename_i ht
        intro he
        cases he
        exact ⟨List.mem_cons_self _ _, ht⟩
      · intro he
        obtain ⟨hm, hh⟩ := findByHash_eq_some h s ts he
        exact ⟨List.mem_cons_of_mem _ hm, hh⟩

theorem findByHash_mapSet (h : Str) (s : ManagedStream) :
    ∀ l : List ManagedStream, (∀ t ∈ l, t.infoHash ≠ some h) →
      s.infoHash = some h → findByHash h (mapSet l s) = some s
  | [], _, hs => by simp [mapSet, findByHash, hs]
  | t :: ts, hl, hs => by
      simp only [mapSet]
      by_cases ht : t.id = s.id
      · simp [ht, findByHash, hs]
      · have hne : t.infoHash ≠ some h := hl t (List.mem_cons_self _ _)
        simp only [ht, if_false, findByHash, hne]
        exact findByHash_mapSet h s ts
          (fun u hu => hl u (List.mem_cons_of_mem _ hu)) hs

theorem foldl_stepOldest_isSome (a : ManagedStream) :
    ∀ l : List ManagedStream, ∃ o, l.foldl stepOldest (some a) = some o
  | [] => ⟨a, rfl⟩
  | s :: rest => by
      simp only [List.foldl_cons, stepOldest]
      split
      · exact foldl_stepOldest_isSome s rest
      · exact foldl_stepOldest_isSome a rest

theorem findOldest_isSome (l : List ManagedStream) (h : l ≠ []) :
    ∃ o, findOldest l = some o := by
  match l with
  | [] => exact absurd rfl h
  | s :: rest =>
      simp only [findOldest, List.foldl_cons, stepOldest]
      exact foldl_stepOldest_isSome s rest

theorem foldl_stepOldest_spec (o : ManagedStream) :
    ∀ (l : List ManagedStream) (a : ManagedStream),
      l.foldl stepOldest (some a) = some o →
      (o.lastAccessedAt ≤ a.lastAccessedAt ∧
        ∀ t ∈ l, o.lastAccessedAt ≤ t.lastAccessedAt) ∧
      (o = a ∨ ∃ l₁ l₂, l = l₁ ++ o :: l₂ ∧
        o.lastAccessedAt < a.lastAccessedAt ∧
        ∀ t ∈ l₁, o.lastAccessedAt < t.lastAccessedAt)
  | [], a => by
      intro h
      simp only [List.foldl_nil, Option.some.injEq] at h
      subst h
      exact ⟨⟨le_refl _, by simp⟩, Or.inl rfl⟩
  | s :: rest, a => by
      intro h
      simp only [List.foldl_cons, stepOldest] at h
      by_cases hlt : s.lastAccessedAt < a.lastAccessedAt
      · rw [if_pos hlt] at h
        obtain ⟨⟨h1, h2⟩, hd⟩ := foldl_stepOldest_spec o rest s h
        refine ⟨⟨le_of_lt (lt_of_le_of_lt h1 hlt), ?_⟩, ?_⟩
        · intro t ht
          rcases List.mem_cons.mp ht with ht | ht
          · exact ht ▸ h1
          · exact h2 t ht
        · rcases hd with rfl | ⟨l₁, l₂, heq, hlt2, hpre⟩
          · exact Or.inr ⟨[], rest, rfl, hlt, by simp⟩
          · refine Or.inr ⟨s :: l₁, l₂, by rw [heq]; rfl,
              lt_trans hlt2 hlt, ?_⟩
            intro t ht
            rcases List.mem_cons.mp ht with ht | ht
            · exact ht ▸ hlt2
            · exact hpre t ht
      · rw [if_neg hlt] at h
        obtain ⟨⟨h1, h2⟩, hd⟩ := foldl_stepOldest_spec o rest a h
        have has : a.lastAccessedAt ≤ s.lastAccessedAt := le_of_not_lt hlt
        refine ⟨⟨h1, ?_⟩, ?_⟩
        · intro t ht
          rcases List.mem_cons.mp ht with ht | ht
          · exact ht ▸ le_trans h1 has
          · exact h2 t ht
        · rcases hd with rfl | ⟨l₁, l₂, heq, hlt2, hpre⟩
          · exact Or.inl rfl
          · refine Or.inr ⟨s :: l₁, l₂, by rw [heq]; rfl, hlt2, ?_⟩
            intro t ht
            rcases List.mem_cons.mp ht with ht | ht
            · exact ht ▸ lt_of_lt_of_le hlt2 has
            · exact hpre t ht

theorem findOldest_spec (l : List ManagedStream) (hne : l ≠ []) :
    ∃ o l₁ l₂, findOldest l = some o ∧ l = l₁ ++ o :: l₂ ∧
      (∀ t ∈ l, o.lastAccessedAt ≤ t.lastAccessedAt) ∧
      ∀ t ∈ l₁, o.lastAccessedAt < t.lastAccessedAt := by
  match l with
  | [] => exact absurd rfl hne
  | x :: xs =>
      obtain ⟨o, ho⟩ := foldl_stepOldest_isSome x xs
      have hfold : findOldest (x :: xs) = some o := by
        simp only [findOldest, List.foldl_cons, stepOldest]
        exact ho
      obtain ⟨⟨h1, h2⟩, hd⟩ := foldl_stepOldest_spec o xs x ho
      rcases hd with rfl | ⟨l₁, l₂, heq, hlt2, hpre⟩
      · refine ⟨o, [], xs, hfold, rfl, ?_, by simp⟩
        intro t ht
        rcases List.mem_cons.mp ht with ht | ht
        · exact ht ▸ le_refl _
        · exact h2 t ht
      · refine ⟨o, x :: l₁, l₂, hfold, by rw [heq]; rfl, ?_, ?_⟩
        · intro t ht
          rcases List.mem_cons.mp ht with ht | ht
          · exact ht ▸ h1
          · exact h2 t ht
        · intro t ht
          rcases List.mem_cons.mp ht with ht | ht
          · exact ht ▸ hlt2
          · exact hpre t ht

theorem findOldest_mem (l : List ManagedStream) (o : ManagedStream)
    (h : findOldest l = some o) : o ∈ l := by
  have hne : l ≠ [] := by
    intro he
    subst he
    simp [findOldest] at h
  obtain ⟨o', l₁, l₂, ho', heq, _, _⟩ := findOldest_spec l hne
  rw [h] at ho'
  cases ho'
  rw [heq]
  exact List.mem_append_right _ (List.mem_cons_self _ _)

theorem removeOp_maxStreams (id : Str) (st : StreamManager) :
    (removeOp id st).maxStreams = st.maxStreams := by
  unfold removeOp
  split <;> rfl

theorem removeOp_ttlMs (id : Str) (st : StreamManager) :
    (removeOp id st).ttlMs = st.ttlMs := by
  unfold removeOp
  split <;> rfl

theorem removeOp_length_le (id : Str) (st : StreamManager) :
    (removeOp id st).streams.length ≤ st.streams.length := by
  unfold removeOp
  split
  · exact le_refl _
  · exact mapDelete_length_le id st.streams

theorem removeOp_length_of_mem (id : Str) (st : StreamManager)
    (h : id ∈ st.streams.map ManagedStream.id) :
    (removeOp id st).streams.length + 1 = st.streams.length := by
  obtain ⟨s, hs⟩ := mapGet_isSome_of_mem id st.streams h
  unfold removeOp
  rw [hs]
  exact mapDelete_length_of_mem id st.streams h

theorem getOp_snd_length (now : Int) (id : Str) (st : StreamManager) :
    (getOp now id st).2.streams.length = st.streams.length := by
  unfold getOp
  cases hg : mapGet st.streams id with
  | none => rfl
  | some s =>
      obtain ⟨hm, hid⟩ := mapGet_eq_some id s st.streams hg
      have hmm : s.id ∈ st.streams.map ManagedStream.id :=
        List.mem_map_of_mem _ hm
      exact mapSet_length_of_mem _ st.streams hmm

theorem getOp_snd_maxStreams (now : Int) (id : Str) (st : StreamManager) :
    (getOp now id st).2.maxStreams = st.maxStreams := by
  unfold getOp
  cases mapGet st.streams id <;> rfl

theorem findByInfoHashOp_snd_length (now : Int) (h : Str)
    (st : StreamManager) :
    (findByInfoHashOp now h st).2.streams.length = st.streams.length := by
  unfold findByInfoHashOp
  cases hg : findByHash h st.streams with
  | none => rfl
  | some s =>
      obtain ⟨hm, _⟩ := findByHash_eq_some h s st.streams hg
      have hmm : s.id ∈ st.streams.map ManagedStream.id :=
        List.mem_map_of_mem _ hm
      exact mapSet_length_of_mem _ st.streams hmm

theorem findByInfoHashOp_snd_maxStreams (now : Int) (h : Str)
    (st : StreamManager) :
    (findByInfoHashOp now h st).2.maxStreams = st.maxStreams := by
  unfold findByInfoHashOp
  cases findByHash h st.streams <;> rfl

theorem cleanupGo_maxStreams (ttl now : Int) :
    ∀ (l : List ManagedStream) (st : StreamManager),
      (cleanupGo ttl now l st).maxStreams = st.maxStreams
  | [], st => rfl
  | s :: rest, st => by
      simp only [cleanupGo]
      split
      · rw [cleanupGo_maxStreams ttl now rest, removeOp_maxStreams]
      · exact cleanupGo_maxStreams ttl now rest st

theorem cleanupGo_length_le (ttl now : Int) :
    ∀ (l : List ManagedStream) (st : StreamManager),
      (cleanupGo ttl now l st).streams.length ≤ st.streams.length
  | [], st => le_refl _
  | s :: rest, st => by
      simp only [cleanupGo]
      split
      · exact le_trans (cleanupGo_length_le ttl now rest _)
          (removeOp_length_le _ _)
      · exact cleanupGo_length_le ttl now rest st

theorem evictLRU_maxStreams (st : StreamManager) :
    (evictLRU st).maxStreams = st.maxStreams := by
  unfold evictLRU
  split
  · rfl
  · exact removeOp_maxStreams _ _

theorem addOp_maxStreams (s : ManagedStream) (st : StreamManager) :
    (addOp s st).maxStreams = st.maxStreams := by
  unfold addOp insertSt
  split
  · exact evictLRU_maxStreams st
  · rfl

theorem addOp_evicts (st : StreamManager) (s : ManagedStream)
    (hc : st.maxStreams ≤ st.streams.length) (hne : st.streams ≠ []) :
    ∃ o, o ∈ st.streams ∧
      addOp s st = insertSt s (removeOp o.id st) := by
  obtain ⟨o, ho⟩ := findOldest_isSome st.streams hne
  refine ⟨o, findOldest_mem _ _ ho, ?_⟩
  unfold addOp evictLRU
  rw [if_pos hc, ho]

theorem stepOp_maxStreams (st : StreamManager) (op : Op) :
    (stepOp st op).maxStreams = st.maxStreams := by
  cases op with
  | add s => exact addOp_maxStreams s st
  | get now id => exact getOp_snd_maxStreams now id st
  | findByInfoHash now h => exact findByInfoHashOp_snd_maxStreams now h st
  | remove id => exact removeOp_maxStreams id st
  | sweep now => exact cleanupGo_maxStreams _ _ _ _

theorem stepOp_length_bound (st : StreamManager) (op : Op)
    (hmax : 0 < st.maxStreams)
    (hlen : st.streams.length ≤ st.maxStreams) :
    (stepOp st op).streams.length ≤ st.maxStreams := by
  cases op with
  | add s =>
      simp only [stepOp, addOp, insertSt]
      by_cases hc : st.maxStreams ≤ st.streams.length
      · rw [if_pos hc]
        have hne : st.streams ≠ [] := by
          intro he
          rw [he] at hc
          simp at hc
          omega
        obtain ⟨o, ho⟩ := findOldest_isSome st.streams hne
        have hom := findOldest_mem _ _ ho
        have hev : (evictLRU st).streams.length + 1 = st.streams.length := by
          simp only [evictLRU, ho]
          exact removeOp_length_of_mem o.id st (List.mem_map_of_mem _ hom)
        calc (mapSet (evictLRU st).streams s).length
            ≤ (evictLRU st).streams.length + 1 := mapSet_length_le s _
          _ = st.streams.length := hev
          _ ≤ st.maxStreams := hlen
      · rw [if_neg hc]
        push_neg at hc
        calc (mapSet st.streams s).length
            ≤ st.streams.length + 1 := mapSet_length_le s _
          _ ≤ st.maxStreams := by omega
  | get now id =>
      simp only [stepOp]
      rw [getOp_snd_length]
      exact hlen
  | findByInfoHash now h =>
      simp only [stepOp]
      rw [findByInfoHashOp_snd_length]
      exact hlen
  | remove id =>
      exact le_trans (removeOp_length_le id st) hlen
  | sweep now =>
      exact le_trans (cleanupGo_length_le _ _ _ _) hlen

theorem runOps_inv :
    ∀ (ops : List Op) (st : StreamManager), 0 < st.maxStreams →
      st.streams.length ≤ st.maxStreams →
      (runOps st ops).maxStreams = st.maxStreams ∧
        (runOps st ops).streams.length ≤ st.maxStreams
  | [], st, _, hlen => ⟨rfl, hlen⟩
  | op :: ops, st, hmax, hlen => by
      have hstep := stepOp_length_bound st op hmax hlen
      have hm := stepOp_maxStreams st op
      have := runOps_inv ops (stepOp st op) (hm ▸ hmax) (hm ▸ hstep)
      simp only [runOps, List.foldl_cons] at *
      exact ⟨by rw [this.1, hm], by rw [← hm]; exact this.2⟩

/-- C1: starting from an empty Session Store, after any sequence of
`add`, `get`, `findByInfoHash`, `remove` and `sweep` operations the
number of registered sessions never exceeds `maxStreams`; and every
`add` call made while the store holds at least `maxStreams` sessions
removes some registered session (releasing it via `remove`) before
inserting the new one. -/
theorem claim_C1_session_count_bounded (maxCap : Nat) (ttlMs : Int)
    (hmax : 0 < maxCap) (ops : List Op) :
    (runOps (initManager maxCap ttlMs) ops).streams.length ≤ maxCap ∧
    ∀ s : ManagedStream,
      maxCap ≤ (runOps (initManager maxCap ttlMs) ops).streams.length →
      ∃ o, o ∈ (runOps (initManager maxCap ttlMs) ops).streams ∧
        addOp s (runOps (initManager maxCap ttlMs) ops) =
          insertSt s (removeOp o.id (runOps (initManager maxCap ttlMs) ops)) := by
  obtain ⟨hmaxEq, hlen⟩ :=
    runOps_inv ops (initManager maxCap ttlMs) hmax (by simp [initManager])
  refine ⟨hlen, ?_⟩
  intro s hc
  have hne : (runOps (initManager maxCap ttlMs) ops).streams ≠ [] := by
    intro he
    rw [he] at hc
    simp at hc
    omega
  exact addOp_evicts _ s (hmaxEq ▸ hc) hne

/-- Witness for C1 at a concrete capacity and operation sequence. -/
theorem claim_C1_witness :
    0 < 2 ∧
      (runOps (initManager 2 1000)
        [Op.add { id := ['a'], type := .hls, createdAt := 0,
                  lastAccessedAt := 0 },
         Op.add { id := ['b'], type := .hls, createdAt := 1,
                  lastAccessedAt := 1 },
         Op.add { id := ['c'], type := .hls, createdAt := 2,
                  lastAccessedAt := 2 }]).streams.length ≤ 2 :=
  ⟨by decide,
    (claim_C1_session_count_bounded 2 1000 (by decide)
      [Op.add { id := ['a'], type := .hls, createdAt := 0,
                lastAccessedAt := 0 },
       Op.add { id := ['b'], type := .hls, createdAt := 1,
                lastAccessedAt := 1 },
       Op.add { id := ['c'], type := .hls, createdAt := 2,
                lastAccessedAt := 2 }]).1⟩

theorem mapGet_append (o : ManagedStream) :
    ∀ l₁ l₂ : List ManagedStream, (∀ t ∈ l₁, t.id ≠ o.id) →
      mapGet (l₁ ++ o :: l₂) o.id = some o
  | [], l₂, _ => by simp [mapGet]
  | t :: ts, l₂, h => by
      simp only [List.cons_append, mapGet]
      rw [if_neg (h t (List.mem_cons_self _ _))]
      exact mapGet_append o ts l₂ (fun u hu => h u (List.mem_cons_of_mem _ hu))

theorem mapDelete_append (o : ManagedStream) :
    ∀ l₁ l₂ : List ManagedStream, (∀ t ∈ l₁, t.id ≠ o.id) →
      mapDelete (l₁ ++ o :: l₂) o.id = l₁ ++ l₂
  | [], l₂, _ => by simp [mapDelete]
  | t :: ts, l₂, h => by
      simp only [List.cons_append, mapDelete]
      rw [if_neg (h t (List.mem_cons_self _ _))]
      rw [show (ts.append (o :: l₂)) = ts ++ o :: l₂ from rfl]
      rw [mapDelete_append o ts l₂ (fun u hu => h u (List.mem_cons_of_mem _ hu))]

theorem pairwise_decomp (l₁ l₂ : List ManagedStream) (o : ManagedStream)
    (h : (l₁ ++ o :: l₂).Pairwise (fun a b => a.id ≠ b.id)) :
    ∀ t ∈ l₁, t.id ≠ o.id := by
  intro t ht
  exact (List.pairwise_append.mp h).2.2 t ht o (List.mem_cons_self _ _)

/-- C2: an `add` on a full store removes exactly the session with the
smallest `lastAccessedAt` (releasing its engine) before inserting the
new session; among ties the earliest-inserted session (every stream
before it in insertion order has a strictly greater `lastAccessedAt`)
is the one evicted. -/
theorem claim_C2_evicts_exact_lru (st : StreamManager) (s : ManagedStream)
    (hWF : WF st) (hne : st.streams ≠ [])
    (hcap : st.maxStreams ≤ st.streams.length) :
    ∃ o l₁ l₂, st.streams = l₁ ++ o :: l₂ ∧
      (∀ t ∈ st.streams, o.lastAccessedAt ≤ t.lastAccessedAt) ∧
      (∀ t ∈ l₁, o.lastAccessedAt < t.lastAccessedAt) ∧
      addOp s st =
        { st with streams := mapSet (l₁ ++ l₂) s,
                  destroyed := st.destroyed ++ engineIdList o } := by
  obtain ⟨o, l₁, l₂, ho, heq, hmin, hstrict⟩ := findOldest_spec st.streams hne
  have hsep : ∀ t ∈ l₁, t.id ≠ o.id := pairwise_decomp l₁ l₂ o (heq ▸ hWF)
  have hget : mapGet st.streams o.id = some o := by
    rw [heq]
    exact mapGet_append o l₁ l₂ hsep
  have hdel : mapDelete st.streams o.id = l₁ ++ l₂ := by
    rw [heq]
    exact mapDelete_append o l₁ l₂ hsep
  refine ⟨o, l₁, l₂, heq, hmin, hstrict, ?_⟩
  unfold addOp
  rw [if_pos hcap]
  simp only [evictLRU, ho, removeOp, hget, insertSt, hdel]

/-- Witness for C2: with two sessions tied for the oldest access time,
the earliest-inserted one is removed and its engine destroyed. -/
theorem claim_C2_witness :
    WF storeABC ∧ storeABC.streams ≠ [] ∧
      storeABC.maxStreams ≤ storeABC.streams.length ∧
      ∃ o l₁ l₂, storeABC.streams = l₁ ++ o :: l₂ ∧
        (∀ t ∈ storeABC.streams, o.lastAccessedAt ≤ t.lastAccessedAt) ∧
        (∀ t ∈ l₁, o.lastAccessedAt < t.lastAccessedAt) ∧
        addOp sessD storeABC =
          { storeABC with streams := mapSet (l₁ ++ l₂) sessD,
                          destroyed := storeABC.destroyed ++ engineIdList o } :=
  ⟨by decide, by decide, by decide,
    claim_C2_evicts_exact_lru storeABC sessD (by decide) (by decide)
      (by decide)⟩

theorem wf_id_unique :
    ∀ l : List ManagedStream, l.Pairwise (fun a b => a.id ≠ b.id) →
      ∀ s t : ManagedStream, s ∈ l → t ∈ l → t.id = s.id → t = s
  | [], _, s, _, hs, _, _ => absurd hs (List.not_mem_nil s)
  | x :: xs, hp, s, t, hs, ht, hid => by
      obtain ⟨hx, hxs⟩ := List.pairwise_cons.mp hp
      rcases List.mem_cons.mp hs with hsx | hsm
      · subst hsx
        rcases List.mem_cons.mp ht with htx | htm
        · exact htx
        · exact absurd hid.symm (hx t htm)
      · rcases List.mem_cons.mp ht with htx | htm
        · subst htx
          exact absurd hid (hx s hsm)
        · exact wf_id_unique xs hxs s t hsm htm hid

theorem cleanupGo_spec (ttl now : Int) :
    ∀ (l pre : List ManagedStream) (maxS : Nat) (tl : Int) (d : List Nat),
      (pre ++ l).Pairwise (fun a b => a.id ≠ b.id) →
      cleanupGo ttl now l
          { streams := pre ++ l, maxStreams := maxS, ttlMs := tl,
            destroyed := d } =
        { streams :=
            pre ++ l.filter (fun s => !decide (ttl < now - s.lastAccessedAt)),
          maxStreams := maxS, ttlMs := tl,
          destroyed := d ++
            (l.filter (fun s => decide (ttl < now - s.lastAccessedAt))).flatMap
              engineIdList }
  | [], pre, maxS, tl, d, _ => by simp [cleanupGo]
  | s :: rest, pre, maxS, tl, d, hp => by
      have hsep : ∀ t ∈ pre, t.id ≠ s.id := by
        intro t ht
        exact (List.pairwise_append.mp hp).2.2 t ht s (List.mem_cons_self _ _)
      by_cases hex : ttl < now - s.lastAccessedAt
      · have hget : mapGet (pre ++ s :: rest) s.id = some s :=
          mapGet_append s pre rest hsep
        have hdel : mapDelete (pre ++ s :: rest) s.id = pre ++ rest :=
          mapDelete_append s pre rest hsep
        have hsub : (pre ++ rest).Sublist (pre ++ s :: rest) :=
          List.Sublist.append_left (List.sublist_cons_self s rest) pre
        have hp' : (pre ++ rest).Pairwise (fun a b => a.id ≠ b.id) :=
          hp.sublist hsub
        simp only [cleanupGo, if_pos hex, removeOp, hget, hdel]
        rw [cleanupGo_spec ttl now rest pre maxS tl (d ++ engineIdList s) hp']
        simp [hex, List.filter_cons, List.append_assoc]
      · simp only [cleanupGo, if_neg hex]
        have hpe : pre ++ s :: rest = (pre ++ [s]) ++ rest := by simp
        rw [show ({ streams := pre ++ s :: rest, maxStreams := maxS,
                    ttlMs := tl, destroyed := d } : StreamManager) =
              { streams := (pre ++ [s]) ++ rest, maxStreams := maxS,
                ttlMs := tl, destroyed := d } from by rw [← hpe]]
        rw [cleanupGo_spec ttl now rest (pre ++ [s]) maxS tl d (hpe ▸ hp)]
        simp [hex, List.filter_cons, List.append_assoc]

theorem cleanupOp_spec (now : Int) (st : StreamManager) (hWF : WF st) :
    cleanupOp now st =
      { st with
        streams := st.streams.filter
          (fun s => !decide (st.ttlMs < now - s.lastAccessedAt)),
        destroyed := st.destroyed ++
          (st.streams.filter
            (fun s => decide (st.ttlMs < now - s.lastAccessedAt))).flatMap
            engineIdList } := by
  have h := cleanupGo_spec st.ttlMs now st.streams [] st.maxStreams st.ttlMs
    st.destroyed (by simpa [WF] using hWF)
  simpa [cleanupOp] using h

/-- C3: at a sweep at clock `now`, every registered session idle strictly
longer than the TTL is removed (no entry with its id remains) and its
engine is destroyed, while every session idle strictly less than the TTL
is still registered after the sweep. -/
theorem claim_C3_ttl_sweep (st : StreamManager) (now : Int)
    (s : ManagedStream) (hWF : WF st) (hs : s ∈ st.streams) :
    (st.ttlMs < now - s.lastAccessedAt →
      (∀ t ∈ (cleanupOp now st).streams, t.id ≠ s.id) ∧
      ∀ e, s.engine = some e → e.engineId ∈ (cleanupOp now st).destroyed) ∧
    (now - s.lastAccessedAt < st.ttlMs → s ∈ (cleanupOp now st).streams) := by
  rw [cleanupOp_spec now st hWF]
  constructor
  · intro hex
    constructor
    · intro t ht hid
      have htmem : t ∈ st.streams := List.mem_of_mem_filter ht
      have hts : t = s := wf_id_unique st.streams hWF s t hs htmem hid
      subst hts
      have hkeep := List.of_mem_filter ht
      simp [hex] at hkeep
    · intro e he
      refine List.mem_append_right _ ?_
      refine List.mem_flatMap.mpr ⟨s, ?_, ?_⟩
      · exact List.mem_filter.mpr ⟨hs, by simp [hex]⟩
      · simp [engineIdList, he]
  · intro hlt
    refine List.mem_filter.mpr ⟨hs, ?_⟩
    have hnot : ¬ (st.ttlMs < now - s.lastAccessedAt) := by omega
    simp [hnot]

/-- Witness for C3: in a store with a 50 ms TTL swept at clock 100, the
session idle for 100 ms is gone (its engine destroyed) and the session
idle for 10 ms survives. -/
theorem claim_C3_witness :
    WF storeEF ∧ sessE ∈ storeEF.streams ∧
      ((storeEF.ttlMs < 100 - sessE.lastAccessedAt →
        (∀ t ∈ (cleanupOp 100 storeEF).streams, t.id ≠ sessE.id) ∧
        ∀ e, sessE.engine = some e →
          e.engineId ∈ (cleanupOp 100 storeEF).destroyed) ∧
      (100 - sessE.lastAccessedAt < storeEF.ttlMs →
        sessE ∈ (cleanupOp 100 storeEF).streams)) :=
  ⟨by decide, by decide,
    claim_C3_ttl_sweep storeEF 100 sessE (by decide) (by decide)⟩

theorem findByHash_none (h : Str) :
    ∀ l : List ManagedStream, (∀ t ∈ l, t.infoHash ≠ some h) →
      findByHash h l = none
  | [], _ => rfl
  | t :: ts, hl => by
      simp only [findByHash]
      rw [if_neg (hl t (List.mem_cons_self _ _))]
      exact findByHash_none h ts (fun u hu => hl u (List.mem_cons_of_mem _ hu))

theorem removeOp_subset (id : Str) (st : StreamManager) (t : ManagedStream)
    (ht : t ∈ (removeOp id st).streams) : t ∈ st.streams := by
  unfold removeOp at ht
  cases hg : mapGet st.streams id with
  | none => rw [hg] at ht; exact ht
  | some s₀ =>
      rw [hg] at ht
      exact mapDelete_subset id t st.streams ht

theorem evictLRU_subset (st : StreamManager) (t : ManagedStream)
    (ht : t ∈ (evictLRU st).streams) : t ∈ st.streams := by
  unfold evictLRU at ht
  cases hfo : findOldest st.streams with
  | none => rw [hfo] at ht; exact ht
  | some o =>
      rw [hfo] at ht
      exact removeOp_subset o.id st t ht

theorem addOp_streams_eq (s : ManagedStream) (st : StreamManager) :
    ∃ pre : List ManagedStream,
      (addOp s st).streams = mapSet pre s ∧ ∀ t ∈ pre, t ∈ st.streams := by
  unfold addOp insertSt
  by_cases hc : st.maxStreams ≤ st.streams.length
  · rw [if_pos hc]
    exact ⟨(evictLRU st).streams, rfl, fun t ht => evictLRU_subset st t ht⟩
  · rw [if_neg hc]
    exact ⟨st.streams, rfl, fun t ht => ht⟩

/-- C4: two torrent create calls whose magnet URIs carry the same
info-hash (and whose engine reports that hash, lower-cased, as its
canonical info-hash) resolve to the same session id: the first call
registers a session and instantiates one engine, and the second call
answers from the registry with the first call's id and metadata while
instantiating no engine at all. -/
theorem claim_C4_infohash_dedupe (m₁ m₂ id₁ id₂ h₁ h₂ : Str) (e : Engine)
    (now₁ now₂ : Int) (st₀ : StreamManager)
    (hm₁ : isMagnet m₁ = true) (hm₂ : isMagnet m₂ = true)
    (hx₁ : extractInfoHash m₁ = some h₁)
    (hx₂ : extractInfoHash m₂ = some h₂)
    (hsame : toLowerStr h₂ = toLowerStr h₁)
    (heng : e.infoHash = toLowerStr h₁)
    (hfresh : ∀ s ∈ st₀.streams, s.infoHash ≠ some (toLowerStr h₁)) :
    (torrentAdd m₁ id₁ e .readyEvt now₁ st₀).1 = .ok id₁ (engineMetadata e) ∧
    (torrentAdd m₁ id₁ e .readyEvt now₁ st₀).2.2 = 1 ∧
    ∀ (e₂ : Engine) (sig₂ : ReadySignal),
      (torrentAdd m₂ id₂ e₂ sig₂ now₂
          (torrentAdd m₁ id₁ e .readyEvt now₁ st₀).2.1).1 =
        .cached id₁ (engineMetadata e) ∧
      (torrentAdd m₂ id₂ e₂ sig₂ now₂
          (torrentAdd m₁ id₁ e .readyEvt now₁ st₀).2.1).2.2 = 0 := by
  have hfind1 : findByHash (toLowerStr h₁) st₀.streams = none :=
    findByHash_none (toLowerStr h₁) st₀.streams hfresh
  have h1 : torrentAdd m₁ id₁ e .readyEvt now₁ st₀ =
      (.ok id₁ (engineMetadata e),
        addOp (torrentSession id₁ now₁ e) st₀, 1) := by
    simp [torrentAdd, hm₁, hx₁, findByInfoHashOp, hfind1, spawnEnginePath,
      waitForReady]
  refine ⟨by rw [h1], by rw [h1], ?_⟩
  intro e₂ sig₂
  obtain ⟨pre, hpre_eq, hpre_sub⟩ :=
    addOp_streams_eq (torrentSession id₁ now₁ e) st₀
  have hfind2 : findByHash (toLowerStr h₂)
      (addOp (torrentSession id₁ now₁ e) st₀).streams =
        some (torrentSession id₁ now₁ e) := by
    rw [hsame, hpre_eq]
    refine findByHash_mapSet (toLowerStr h₁) _ pre
      (fun t ht => hfresh t (hpre_sub t ht)) ?_
    simp [torrentSession, heng]
  rw [h1]
  constructor
  · simp [torrentAdd, hm₂, hx₂, findByInfoHashOp, hfind2]
    simp [torrentSession]
  · simp [torrentAdd, hm₂, hx₂, findByInfoHashOp, hfind2]
    simp [torrentSession]

/-- Witness for C4 at a concrete magnet URI, engine and empty store. -/
theorem claim_C4_witness :
    isMagnet magnetW = true ∧ extractInfoHash magnetW = some hashW ∧
      toLowerStr hashW = toLowerStr hashW ∧
      engW.infoHash = toLowerStr hashW ∧
      (torrentAdd magnetW ['x'] engW .readyEvt 5
        (initManager 20 1000)).1 = .ok ['x'] (engineMetadata engW) ∧
      ∀ (e₂ : Engine) (sig₂ : ReadySignal),
        (torrentAdd magnetW ['y'] e₂ sig₂ 6
            (torrentAdd magnetW ['x'] engW .readyEvt 5
              (initManager 20 1000)).2.1).1 =
          .cached ['x'] (engineMetadata engW) ∧
        (torrentAdd magnetW ['y'] e₂ sig₂ 6
            (torrentAdd magnetW ['x'] engW .readyEvt 5
              (initManager 20 1000)).2.1).2.2 = 0 :=
  have hmain := claim_C4_infohash_dedupe magnetW magnetW ['x'] ['y']
    hashW hashW engW 5 6 (initManager 20 1000)
    (by decide) (by decide) (by decide) (by decide) (by decide)
    (by decide) (by decide)
  ⟨by decide, by decide, by decide, by decide, hmain.1, hmain.2.2⟩

/-- C5 counterexample: for the request `Range: bytes=0-2000` against a
1000-byte file the handler emits `Content-Range: bytes 0-2000/1000` —
the end is not clamped to `fileLength - 1` as the claim states, so the
emitted head differs from the clamped head the claim mandates. -/
theorem claim_C5_counterexample :
    (torrentStreamHandler 5 storeT ['t'] ['0']
        (some "bytes=0-2000".toList)).1 =
      .head (torrentRangeHead "bytes=0-2000".toList 1000
        "video/mp4".toList) ∧
    (torrentRangeHead "bytes=0-2000".toList 1000
        "video/mp4".toList).contentRange =
      some (some 0, some 2000, 1000) ∧
    some (torrentRangeHead "bytes=0-2000".toList 1000 "video/mp4".toList) ≠
      specClampedRangeHead "bytes=0-2000".toList 1000 "video/mp4".toList := by
  decide

/-- C5 (amended): the torrent stream route performs no clamping and no
start/end validation: every request with a Range header is answered 206
with `Content-Range: bytes {start}-{end}/{fileLength}` where `start` and
`end` are taken verbatim from the header (`end` defaults to
`fileLength - 1` when the second part is absent or empty); when the
requested range happens to lie within `[0, fileLength-1]` with
`start ≤ end`, this coincides with the clamped head the spec
describes. -/
theorem claim_C5_amended_unclamped_206 (range : Str) (total : Int)
    (ct : Str) :
    torrentRangeHead range total ct =
      { status := 206,
        contentRange := some (rangeStart range, rangeEnd range total, total),
        contentLength :=
          match rangeStart range, rangeEnd range total with
          | some a, some b => some (b - a + 1)
          | _, _ => none,
        contentType := ct, acceptRanges := true } ∧
    ∀ a b : Int, rangeStart range = some a → rangeEnd range total = some b →
      0 ≤ a → a ≤ b → b ≤ total - 1 →
      some (torrentRangeHead range total ct) =
        specClampedRangeHead range total ct := by
  refine ⟨rfl, ?_⟩
  intro a b hs he h0 hab hb
  have hmax : (0 : Int) ⊔ a = a := max_eq_right h0
  have hmin : b ⊓ (total - 1) = b := min_eq_left hb
  simp only [torrentRangeHead, specClampedRangeHead, hs, he, hmax, hmin]
  rw [if_neg (not_lt.mpr hab)]

/-- Witness for C5 (amended): `bytes=0-99` on a 1000-byte file agrees
with the clamped specification head. -/
theorem claim_C5_witness :
    some (torrentRangeHead "bytes=0-99".toList 1000 "video/mp4".toList) =
      specClampedRangeHead "bytes=0-99".toList 1000 "video/mp4".toList :=
  (claim_C5_amended_unclamped_206 "bytes=0-99".toList 1000
      "video/mp4".toList).2 0 99 (by decide) (by decide) (by decide)
    (by decide) (by decide)

/-- C6 counterexample: a segment request whose suffix is an absolute URL
on a foreign host resolves to that foreign target and the handler
proceeds to fetch it upstream — it is not rejected, although the
resolved target escapes the session's base host. -/
theorem claim_C6_counterexample :
    (hlsSegmentHandler 50 storeEF ['f']
        "https://evil.example/seg.ts".toList none none).1 =
      .fetchUpstream "https://evil.example/seg.ts".toList [] ∧
    urlHost "https://evil.example/seg.ts".toList ≠
      urlHost "https://cdn.example/hls/master.m3u8".toList := by
  decide

/-- C6 (amended): the segment handler performs no scope validation at
all: for any registered hls session, every suffix whose resolution
against the stored base URL succeeds is fetched upstream with the
forwarded headers — even when the resolved target's host differs from
the base URL's host. Requests are rejected only when the session is
missing, of the wrong type, or without a base URL. -/
theorem claim_C6_amended_no_scope_validation (now : Int)
    (st : StreamManager) (idStr suffix base target : Str)
    (range ua : Option Str) (s : ManagedStream)
    (hget : mapGet st.streams idStr = some s)
    (htype : s.type = .hls)
    (hbase : s.hlsBaseUrl = some base)
    (hres : resolveUrl suffix base = some target)
    (_hesc : urlHost target ≠ urlHost base) :
    (hlsSegmentHandler now st idStr suffix range ua).1 =
      .fetchUpstream target
        ((match range with
          | some r => [("range".toList, r)]
          | none => []) ++
         (match ua with
          | some u => [("user-agent".toList, u)]
          | none => [])) := by
  have hgo : getOp now idStr st =
      (some { s with lastAccessedAt := now },
        { st with streams :=
            mapSet st.streams ({ s with lastAccessedAt := now }) }) := by
    simp [getOp, hget]
  simp [hlsSegmentHandler, hgo, htype, hbase, hres]

/-- Witness for C6 (amended): the concrete escaping request of the
counterexample reaches the upstream fetch. -/
theorem claim_C6_witness :
    mapGet storeEF.streams ['f'] = some sessF ∧
    sessF.type = .hls ∧
    sessF.hlsBaseUrl = some "https://cdn.example/hls/master.m3u8".toList ∧
    resolveUrl "https://evil.example/seg.ts".toList
        "https://cdn.example/hls/master.m3u8".toList =
      some "https://evil.example/seg.ts".toList ∧
    urlHost "https://evil.example/seg.ts".toList ≠
      urlHost "https://cdn.example/hls/master.m3u8".toList ∧
    (hlsSegmentHandler 60 storeEF ['f']
        "https://evil.example/seg.ts".toList none none).1 =
      .fetchUpstream "https://evil.example/seg.ts".toList [] :=
  ⟨by decide, by decide, by decide, by decide, by decide,
    claim_C6_amended_no_scope_validation 60 storeEF ['f']
      "https://evil.example/seg.ts".toList
      "https://cdn.example/hls/master.m3u8".toList
      "https://evil.example/seg.ts".toList none none sessF
      (by decide) (by decide) (by decide) (by decide) (by decide)⟩

/-- C7 counterexample: on the line consisting of a space followed by
`a`, the code emits the proxy path plus the encoding of the trimmed
text (`/p/a`), not the percent-encoding of the original line text
(`/p/%20a`) that the claim mandates. -/
theorem claim_C7_counterexample :
    rewriteManifest "/p/".toList " a".toList ≠
      specRewriteManifest "/p/".toList " a".toList ∧
    rewriteManifest "/p/".toList " a".toList = "/p/a".toList ∧
    specRewriteManifest "/p/".toList " a".toList = "/p/%20a".toList := by
  decide

/-- C7 (amended): rewriting operates line by line; the blank, comment
and absolute-URL checks are applied to the trimmed line text and such
lines pass verbatim, every other line is replaced by the proxy path
plus the percent-encoding of the line's trimmed text; for a line
carrying no surrounding whitespace this coincides exactly with the
claim's rule. -/
theorem claim_C7_amended_rewrite_trimmed (p text : Str) :
    rewriteManifest p text =
      List.intercalate ['\n']
        ((splitOnChar '\n' text).map (rewriteLine p)) ∧
    (∀ line : Str, jsTrim line = line →
      rewriteLine p line = specRewriteLine p line) ∧
    (∀ line : Str, jsTrim line ≠ [] →
      startsWithStr ['#'] (jsTrim line) = false →
      isAbsHttpUrl (jsTrim line) = false →
      rewriteLine p line = p ++ encodeURI (jsTrim line)) := by
  refine ⟨rfl, ?_, ?_⟩
  · intro line htrim
    simp only [rewriteLine, specRewriteLine, htrim]
  · intro line h1 h2 h3
    simp only [rewriteLine, h2, h3, if_neg h1]
    simp

/-- Witness for C7 (amended): a clean relative line obeys the claim's
rule verbatim. -/
theorem claim_C7_witness :
    jsTrim "seg1.ts".toList = "seg1.ts".toList ∧
    rewriteLine "/p/".toList "seg1.ts".toList =
      specRewriteLine "/p/".toList "seg1.ts".toList :=
  ⟨by decide,
    (claim_C7_amended_rewrite_trimmed "/p/".toList []).2.1
      "seg1.ts".toList (by decide)⟩

/-- C8 (code bug): `waitForReady` destroys the partially-constructed
engine on the timeout branch, but the `error` branch rejects without
any `engine.destroy()` call, and the failed-add path leaves the manager
state (hence the destroy ledger) untouched — so an engine whose error
event fires first is never released, contrary to the claim. -/
theorem claim_C8_error_branch_leaks_engine :
    ∀ e : Engine,
      (waitForReady e .errorEvt).engineDestroyed = false ∧
      (waitForReady e .errorEvt).outcome = .err .engineError ∧
      (waitForReady e .timeoutEvt).engineDestroyed = true ∧
      (waitForReady e .timeoutEvt).outcome = .err .timeout ∧
      ∀ (newId : Str) (now : Int) (st : StreamManager),
        spawnEnginePath newId e .errorEvt now st =
          (.failed .engineError, st, 1) :=
  fun _ => ⟨rfl, rfl, rfl, rfl, fun _ _ _ => rfl⟩

/-- C9 (code bug): `get` hands out a session whose engine a subsequent
capacity eviction destroys immediately: in a store at capacity 1, `get`
returns the session holding engine 7, and the very next `add` evicts
that session and invokes `destroy()` on engine 7 — nothing excludes
in-use sessions from eviction or defers the destruction. -/
theorem claim_C9_eviction_destroys_in_use_engine :
    ((getOp 100 ['e'] storeG).1.map
        (fun s => s.engine.map Engine.engineId)) = some (some 7) ∧
    (addOp sessD (getOp 100 ['e'] storeG).2).destroyed = [7] := by
  decide

/-- C10 counterexample: overwriting the sole registered session by id
while the store is at capacity destroys the previous session's engine
(the eviction runs before the `set`), contradicting the claim that the
overwrite never destroys the previous engine. -/
theorem claim_C10_counterexample :
    sessE.id = sessE2.id ∧ sessE ∈ storeG.streams ∧
    (addOp sessE2 storeG).destroyed = [7] ∧
    (addOp sessE2 storeG).destroyed ≠ storeG.destroyed := by
  decide

theorem mapGet_mapSet (s : ManagedStream) :
    ∀ l : List ManagedStream, mapGet (mapSet l s) s.id = some s
  | [] => by simp [mapSet, mapGet]
  | t :: ts => by
      simp only [mapSet]
      by_cases ht : t.id = s.id
      · simp [ht, mapGet]
      · simp [ht, mapGet, mapGet_mapSet s ts]

theorem mapSet_mem_preserve (s t : ManagedStream) :
    ∀ l : List ManagedStream, t ∈ l → t.id ≠ s.id → t ∈ mapSet l s
  | [] => by simp
  | u :: us => by
      intro ht hne
      simp only [mapSet]
      by_cases hu : u.id = s.id
      · rw [if_pos hu]
        rcases List.mem_cons.mp ht with htu | htm
        · exact absurd (htu ▸ hu) hne
        · exact List.mem_cons_of_mem _ htm
      · rw [if_neg hu]
        rcases List.mem_cons.mp ht with htu | htm
        · exact htu ▸ List.mem_cons_self _ _
        · exact List.mem_cons_of_mem _ (mapSet_mem_preserve s t us htm hne)

/-- C10 (amended): when `add` receives an already-registered id while
the store holds fewer than `maxStreams` sessions, the entry is
overwritten in place: no engine is destroyed, the session count is
unchanged, the entry under that id becomes the new session, and every
other session is untouched. (At capacity, eviction runs first even for
an overwrite, which is the counterexample.) -/
theorem claim_C10_amended_overwrite_in_place (st : StreamManager)
    (s : ManagedStream)
    (hmem : s.id ∈ st.streams.map ManagedStream.id)
    (hcap : st.streams.length < st.maxStreams) :
    (addOp s st).streams.length = st.streams.length ∧
    (addOp s st).destroyed = st.destroyed ∧
    mapGet (addOp s st).streams s.id = some s ∧
    ∀ t ∈ st.streams, t.id ≠ s.id → t ∈ (addOp s st).streams := by
  have hc : ¬ (st.maxStreams ≤ st.streams.length) := not_le.mpr hcap
  unfold addOp insertSt
  rw [if_neg hc]
  refine ⟨mapSet_length_of_mem s st.streams hmem, rfl, ?_, ?_⟩
  · exact mapGet_mapSet s st.streams
  · intro t ht hne
    exact mapSet_mem_preserve s t st.streams ht hne

/-- Witness for C10 (amended): overwriting the torrent session of a
two-session store under capacity destroys nothing and leaves the other
session in place. -/
theorem claim_C10_witness :
    sessE2.id ∈ storeEF.streams.map ManagedStream.id ∧
    storeEF.streams.length < storeEF.maxStreams ∧
    ((addOp sessE2 storeEF).streams.length = storeEF.streams.length ∧
      (addOp sessE2 storeEF).destroyed = storeEF.destroyed ∧
      mapGet (addOp sessE2 storeEF).streams sessE2.id = some sessE2 ∧
      ∀ t ∈ storeEF.streams, t.id ≠ sessE2.id →
        t ∈ (addOp sessE2 storeEF).streams) :=
  ⟨by decide, by decide,
    claim_C10_amended_overwrite_in_place storeEF sessE2 (by decide)
      (by decide)⟩

end Trh
